import Mathlib

/-!
Verification development for the loan-amortization application (`src/App.py`).

The amortization engine `calculate_amortization_schedule` and the credential
functions `register_user` / `authenticate_user` are embedded shallowly:

* Python floats become `ℚ` (exact arithmetic; `round(x, 2)` becomes
  round-half-to-even at two decimals, mirroring Python's documented `round`).
* `datetime.date` becomes the `Date` structure below with proleptic Gregorian
  month lengths; `date.replace` raising `ValueError` becomes an `Option`.
* `datetime.now().date()` — the code reads the wall clock — becomes an explicit
  `today : Date` argument of the embedding.
* Python's `ZeroDivisionError` paths become `Option.none`.
* The SQLite user table becomes an association list keyed by username; the
  `hashlib.sha256(...).hexdigest()` call becomes an explicit function argument
  `hash : String → String`, since the cryptographic hash itself is opaque to
  this development.
-/

/-- Calendar date, mirroring Python `datetime.date` (proleptic Gregorian). -/
structure Date where
  year : Nat
  month : Nat
  day : Nat
deriving DecidableEq, Repr

/-- Gregorian leap-year test, as in Python's `calendar.isleap`. -/
def isLeapYear (y : Nat) : Bool :=
  y % 4 == 0 && (y % 100 != 0 || y % 400 == 0)

/-- Number of days in a month of a given year. -/
def daysInMonth (y m : Nat) : Nat :=
  if m = 2 then (if isLeapYear y then 29 else 28)
  else if m = 4 ∨ m = 6 ∨ m = 9 ∨ m = 11 then 30
  else 31

/-- Model of Python `d.replace(month := m)`: `none` when Python raises
`ValueError` (month out of range, or the day is invalid in the new month). -/
def replaceMonth (d : Date) (m : Nat) : Option Date :=
  if 1 ≤ m ∧ m ≤ 12 ∧ d.day ≤ daysInMonth d.year m then some ⟨d.year, m, d.day⟩
  else none

/-- The previous calendar day, as computed by Python date subtraction of one day. -/
def predDay (d : Date) : Date :=
  if 2 ≤ d.day then ⟨d.year, d.month, d.day - 1⟩
  else if 2 ≤ d.month then ⟨d.year, d.month - 1, daysInMonth d.year (d.month - 1)⟩
  else ⟨d.year - 1, 12, 31⟩

/-- The next calendar day. -/
def succDay (d : Date) : Date :=
  if d.day < daysInMonth d.year d.month then ⟨d.year, d.month, d.day + 1⟩
  else if d.month < 12 then ⟨d.year, d.month + 1, 1⟩
  else ⟨d.year + 1, 1, 1⟩

/-- Adding `n` days, modelling Python `date + timedelta(days := n)`. -/
def addDays (n : Nat) (d : Date) : Date := succDay^[n] d

/-- Monthly date advancement exactly as in `App.py` lines 73-81:
try `replace(month := month+1)`; on `ValueError`, either roll the year over
(when the month is December) or take `replace(month := month+1, day := 1)`
minus one day. -/
def stepMonth (d : Date) : Date :=
  match replaceMonth d (d.month + 1) with
  | some d2 => d2
  | none =>
      if d.month = 12 then ⟨d.year + 1, 1, d.day⟩
      else predDay ⟨d.year, d.month + 1, 1⟩

/-- Date advancement per period (`App.py` lines 73-85): monthly stepping for 12
payments per year, 14 days for 26, 7 days for 52, and no advancement otherwise
(the Python `if/elif` chain has no `else` branch). -/
def stepDate (payments_per_year : Nat) (d : Date) : Date :=
  if payments_per_year = 12 then stepMonth d
  else if payments_per_year = 26 then addDays 14 d
  else if payments_per_year = 52 then addDays 7 d
  else d

/-- Round a rational to the nearest integer, ties to even (Python `round`). -/
def roundHalfEven (q : ℚ) : ℤ :=
  if q - Rat.floor q < 1/2 then Rat.floor q
  else if 1/2 < q - Rat.floor q then Rat.floor q + 1
  else if Rat.floor q % 2 = 0 then Rat.floor q else Rat.floor q + 1

/-- Model of Python `round(x, 2)`. -/
def round2 (q : ℚ) : ℚ := (roundHalfEven (100 * q) : ℚ) / 100

/-- One row of the emitted schedule (`App.py` lines 87-96). The Python code
formats the date as an ISO `YYYY-MM-DD` string; the embedding keeps the
calendar date itself. -/
structure PaymentRecord where
  payment_num : Nat
  date : Date
  payment : ℚ
  extra_payment : ℚ
  total_payment : ℚ
  principal : ℚ
  interest : ℚ
  balance : ℚ
deriving DecidableEq, Repr

/-- The `for payment_num in range(1, total_payments + 1)` loop of
`calculate_amortization_schedule` (`App.py` lines 68-99), with the remaining
iteration count as fuel. Each iteration computes the interest, caps the
principal portion at the balance, updates the balance, advances the date,
appends a record, and breaks when the balance has reached zero. -/
def amortLoop (periodic_rate payment extra_payment : ℚ) (payments_per_year : Nat) :
    Nat → Nat → ℚ → Date → List PaymentRecord
  | 0, _, _, _ => []
  | fuel + 1, payment_num, balance, current_date =>
    let interest := balance * periodic_rate
    let principal_payment := min (payment + extra_payment - interest) balance
    let balance2 := balance - principal_payment
    let date2 := stepDate payments_per_year current_date
    let rec1 : PaymentRecord :=
      { payment_num := payment_num
        date := date2
        payment := round2 payment
        extra_payment := round2 extra_payment
        total_payment := round2 (payment + extra_payment)
        principal := round2 principal_payment
        interest := round2 interest
        balance := max (round2 balance2) 0 }
    if balance2 ≤ 0 then [rec1]
    else rec1 :: amortLoop periodic_rate payment extra_payment payments_per_year
        fuel (payment_num + 1) balance2 date2

/-- Embedding of `calculate_amortization_schedule` (`App.py` lines 55-101).
`today` stands for `datetime.now().date()`: the code reads the wall clock, it
has no `start_date` parameter. `none` models Python's `ZeroDivisionError`
(zero `payments_per_year`, or a zero denominator in the payment formula).
There is no input validation in the source: no other failure exists. -/
def calculate_amortization_schedule (principal annual_rate : ℚ)
    (years payments_per_year : Nat) (extra_payment : ℚ) (today : Date) :
    Option (ℚ × List PaymentRecord) :=
  if payments_per_year = 0 then none
  else
    let periodic_rate := annual_rate / 100 / (payments_per_year : ℚ)
    let total_payments := years * payments_per_year
    if 0 < periodic_rate then
      if (1 + periodic_rate) ^ total_payments - 1 = 0 then none
      else
        let payment := principal * (periodic_rate * (1 + periodic_rate) ^ total_payments) /
          ((1 + periodic_rate) ^ total_payments - 1)
        some (payment, amortLoop periodic_rate payment extra_payment payments_per_year
          total_payments 1 principal today)
    else
      if total_payments = 0 then none
      else
        let payment := principal / (total_payments : ℚ)
        some (payment, amortLoop periodic_rate payment extra_payment payments_per_year
          total_payments 1 principal today)

/-- The users table of `loan_app.db`: rows of (username, stored password),
with username as primary key. -/
structure UserStore where
  users : List (String × String)
deriving DecidableEq, Repr

/-- Embedding of `register_user` (`App.py` lines 28-41), with the SHA-256
hex digest abstracted as `hash`. The `INSERT` succeeds only when the primary
key is fresh; `sqlite3.IntegrityError` becomes the `false` branch. -/
def register_user (hash : String → String) (db : UserStore)
    (username password : String) : Bool × UserStore :=
  let hashed_password := hash password
  if db.users.any (fun row => row.1 == username) then (false, db)
  else (true, ⟨db.users ++ [(username, hashed_password)]⟩)

/-- Embedding of `authenticate_user` (`App.py` lines 43-52): the `SELECT`
matches a row whose username and stored password both agree, the password
being compared as `hash password`. -/
def authenticate_user (hash : String → String) (db : UserStore)
    (username password : String) : Bool :=
  let hashed_password := hash password
  db.users.any (fun row => row.1 == username && row.2 == hashed_password)

/-- Numeric content of a record: every field except the due date. -/
def numericPart (rec : PaymentRecord) : Nat × ℚ × ℚ × ℚ × ℚ × ℚ × ℚ :=
  (rec.payment_num, rec.payment, rec.extra_payment, rec.total_payment,
   rec.principal, rec.interest, rec.balance)

/-- Exact remaining balance of an annuity with `m` periods left, defined by
the backward recurrence: one period earlier the balance was larger by the
period's interest and smaller by one payment. -/
def annuityBalance (r payment : ℚ) : Nat → ℚ
  | 0 => 0
  | m + 1 => (annuityBalance r payment m + payment) / (1 + r)

/-- First schedule record of the reference run
`calculate_amortization_schedule 12 0 1 12 0 ⟨2024, 1, 1⟩`. -/
def tinyRec1 : PaymentRecord :=
  ⟨1, ⟨2024, 2, 1⟩, 1, 0, 1, 1, 0, 11⟩

/-- Complete schedule of the reference run
`calculate_amortization_schedule 12 0 1 12 0 ⟨2024, 1, 1⟩`. -/
def tinySched : List PaymentRecord :=
  [tinyRec1,
   ⟨2, ⟨2024, 3, 1⟩, 1, 0, 1, 1, 0, 10⟩,
   ⟨3, ⟨2024, 4, 1⟩, 1, 0, 1, 1, 0, 9⟩,
   ⟨4, ⟨2024, 5, 1⟩, 1, 0, 1, 1, 0, 8⟩,
   ⟨5, ⟨2024, 6, 1⟩, 1, 0, 1, 1, 0, 7⟩,
   ⟨6, ⟨2024, 7, 1⟩, 1, 0, 1, 1, 0, 6⟩,
   ⟨7, ⟨2024, 8, 1⟩, 1, 0, 1, 1, 0, 5⟩,
   ⟨8, ⟨2024, 9, 1⟩, 1, 0, 1, 1, 0, 4⟩,
   ⟨9, ⟨2024, 10, 1⟩, 1, 0, 1, 1, 0, 3⟩,
   ⟨10, ⟨2024, 11, 1⟩, 1, 0, 1, 1, 0, 2⟩,
   ⟨11, ⟨2024, 12, 1⟩, 1, 0, 1, 1, 0, 1⟩,
   ⟨12, ⟨2025, 1, 1⟩, 1, 0, 1, 1, 0, 0⟩]

section RoundingLemmas

lemma ratFloor_eq (q : ℚ) : Rat.floor q = ⌊q⌋ :=
  (Rat.floor_def' q).trans Rat.floor_def.symm

lemma floor_le_roundHalfEven (q : ℚ) : ⌊q⌋ ≤ roundHalfEven q := by
  unfold roundHalfEven
  simp only [ratFloor_eq]
  split_ifs <;> omega

lemma roundHalfEven_le_floor_add_one (q : ℚ) : roundHalfEven q ≤ ⌊q⌋ + 1 := by
  unfold roundHalfEven
  simp only [ratFloor_eq]
  split_ifs <;> omega

lemma roundHalfEven_mono {a b : ℚ} (hab : a ≤ b) :
    roundHalfEven a ≤ roundHalfEven b := by
  rcases lt_or_eq_of_le (Int.floor_mono hab) with hf | hf
  · calc roundHalfEven a ≤ ⌊a⌋ + 1 := roundHalfEven_le_floor_add_one a
      _ ≤ ⌊b⌋ := by omega
      _ ≤ roundHalfEven b := floor_le_roundHalfEven b
  · have hfr : a - (⌊b⌋ : ℚ) ≤ b - (⌊b⌋ : ℚ) := by linarith
    unfold roundHalfEven
    simp only [ratFloor_eq]
    rw [hf]
    split_ifs <;> first | omega | linarith

lemma abs_roundHalfEven_sub_le (q : ℚ) : |(roundHalfEven q : ℚ) - q| ≤ 1/2 := by
  have h1 : ((⌊q⌋ : ℤ) : ℚ) ≤ q := Int.floor_le q
  have h2 : q < ((⌊q⌋ : ℤ) : ℚ) + 1 := Int.lt_floor_add_one q
  unfold roundHalfEven
  simp only [ratFloor_eq]
  split_ifs <;> rw [abs_le] <;> constructor <;> push_cast <;> linarith

lemma round2_mono {a b : ℚ} (hab : a ≤ b) : round2 a ≤ round2 b := by
  unfold round2
  have h := roundHalfEven_mono (show (100:ℚ) * a ≤ 100 * b by linarith)
  have h' : ((roundHalfEven (100*a) : ℤ) : ℚ) ≤ ((roundHalfEven (100*b) : ℤ) : ℚ) := by
    exact_mod_cast h
  linarith

lemma abs_round2_sub_le (q : ℚ) : |round2 q - q| ≤ 1/200 := by
  have key : round2 q - q = ((roundHalfEven (100*q) : ℚ) - 100*q)/100 := by
    unfold round2; ring
  rw [key, abs_div]
  have h100 : |(100:ℚ)| = 100 := by norm_num
  rw [h100]
  linarith [abs_roundHalfEven_sub_le (100*q)]

lemma round2_zero : round2 0 = 0 := by
  unfold round2 roundHalfEven
  simp only [ratFloor_eq]
  norm_num

end RoundingLemmas

section LoopLemmas

/-- Unfolding equation for one loop iteration. -/
lemma amortLoop_succ (r pay extra : ℚ) (ppy fuel num : Nat) (b : ℚ) (d : Date) :
    amortLoop r pay extra ppy (fuel + 1) num b d =
      if b - min (pay + extra - b * r) b ≤ 0 then
        [⟨num, stepDate ppy d, round2 pay, round2 extra, round2 (pay + extra),
          round2 (min (pay + extra - b * r) b), round2 (b * r),
          max (round2 (b - min (pay + extra - b * r) b)) 0⟩]
      else
        ⟨num, stepDate ppy d, round2 pay, round2 extra, round2 (pay + extra),
          round2 (min (pay + extra - b * r) b), round2 (b * r),
          max (round2 (b - min (pay + extra - b * r) b)) 0⟩ ::
          amortLoop r pay extra ppy fuel (num + 1)
            (b - min (pay + extra - b * r) b) (stepDate ppy d) := rfl

lemma amortLoop_length_le (r pay extra : ℚ) (ppy : Nat) :
    ∀ m num b d, (amortLoop r pay extra ppy m num b d).length ≤ m := by
  intro m
  induction m with
  | zero => intro num b d; simp [amortLoop]
  | succ m ih =>
    intro num b d
    rw [amortLoop_succ]
    split_ifs
    · simp
    · simpa using ih (num + 1) _ _

lemma amortLoop_total_payment (r pay extra : ℚ) (ppy : Nat) :
    ∀ m num b d, ∀ rec ∈ amortLoop r pay extra ppy m num b d,
      rec.total_payment = round2 (pay + extra) := by
  intro m
  induction m with
  | zero => intro num b d; simp [amortLoop]
  | succ m ih =>
    intro num b d rec hrec
    rw [amortLoop_succ] at hrec
    split_ifs at hrec
    · simp only [List.mem_singleton] at hrec
      subst hrec; rfl
    · rcases List.mem_cons.mp hrec with h | h
      · subst h; rfl
      · exact ih (num + 1) _ _ rec h

lemma amortLoop_numeric_date_free (r pay extra : ℚ) (ppy : Nat) :
    ∀ m num b d d1,
      (amortLoop r pay extra ppy m num b d).map numericPart =
      (amortLoop r pay extra ppy m num b d1).map numericPart := by
  intro m
  induction m with
  | zero => intro num b d d1; simp [amortLoop]
  | succ m ih =>
    intro num b d d1
    rw [amortLoop_succ, amortLoop_succ]
    split_ifs
    · simp [numericPart]
    · simp only [List.map_cons]
      rw [ih (num + 1) _ (stepDate ppy d) (stepDate ppy d1)]
      simp [numericPart]

lemma amortLoop_zero_rate (pay extra : ℚ) (ppy : Nat) :
    ∀ m num b d,
      (∀ rec ∈ amortLoop 0 pay extra ppy m num b d, rec.interest = 0) ∧
      (∀ rec ∈ (amortLoop 0 pay extra ppy m num b d).dropLast,
        rec.principal = round2 (pay + extra)) := by
  intro m
  induction m with
  | zero => intro num b d; simp [amortLoop]
  | succ m ih =>
    intro num b d
    rw [amortLoop_succ]
    split_ifs with hstop
    · refine ⟨?_, ?_⟩
      · intro rec hrec
        simp only [List.mem_singleton] at hrec
        subst hrec
        show round2 (b * 0) = 0
        rw [mul_zero, round2_zero]
      · intro rec hrec
        simp at hrec
    · obtain ⟨ih1, ih2⟩ := ih (num + 1) (b - min (pay + extra - b * 0) b) (stepDate ppy d)
      refine ⟨?_, ?_⟩
      · intro rec hrec
        rcases List.mem_cons.mp hrec with h | h
        · subst h
          show round2 (b * 0) = 0
          rw [mul_zero, round2_zero]
        · exact ih1 rec h
      · intro rec hrec
        rcases hrest : amortLoop 0 pay extra ppy m (num + 1)
            (b - min (pay + extra - b * 0) b) (stepDate ppy d) with _ | ⟨z, zs⟩
        · rw [hrest] at hrec
          simp at hrec
        · rw [hrest, List.dropLast_cons₂] at hrec
          rcases List.mem_cons.mp hrec with h | h
          · subst h
            show round2 (min (pay + extra - b * 0) b) = round2 (pay + extra)
            have hmin : min (pay + extra - b * 0) b = pay + extra := by
              rcases min_cases (pay + extra - b * 0) b with ⟨he, _⟩ | ⟨he, hc⟩
              · rw [he]; ring
              · exfalso
                apply hstop
                rw [he]
                simp
            rw [hmin]
          · have := ih2 rec
            rw [hrest] at this
            exact this h

end LoopLemmas

section AnnuityLemmas

lemma annuityBalance_nonneg {r pay : ℚ} (hr : 0 ≤ r) (hpay : 0 ≤ pay) :
    ∀ m, 0 ≤ annuityBalance r pay m := by
  intro m
  induction m with
  | zero => simp [annuityBalance]
  | succ m ih =>
    show 0 ≤ (annuityBalance r pay m + pay) / (1 + r)
    have h1 : (0:ℚ) ≤ 1 + r := by linarith
    exact div_nonneg (by linarith) h1

lemma annuityBalance_pos {r pay : ℚ} (hr : 0 ≤ r) (hpay : 0 < pay) (m : Nat) :
    0 < annuityBalance r pay (m + 1) := by
  have h0 := annuityBalance_nonneg hr (le_of_lt hpay) m
  show 0 < (annuityBalance r pay m + pay) / (1 + r)
  exact div_pos (by linarith) (by linarith)

lemma annuityBalance_rec {r : ℚ} (pay : ℚ) (hr : 0 ≤ r) (m : Nat) :
    (1 + r) * annuityBalance r pay (m + 1) - pay = annuityBalance r pay m := by
  have h1 : (1:ℚ) + r ≠ 0 := by positivity
  show (1 + r) * ((annuityBalance r pay m + pay) / (1 + r)) - pay = annuityBalance r pay m
  field_simp

lemma annuityBalance_pos' {r pay : ℚ} (hr : 0 ≤ r) (hpay : 0 < pay) {m : Nat}
    (hm : 1 ≤ m) : 0 < annuityBalance r pay m := by
  cases m with
  | zero => omega
  | succ m => exact annuityBalance_pos hr hpay m

lemma annuityBalance_rate_lt {r pay : ℚ} (hr : 0 ≤ r) (hpay : 0 < pay) :
    ∀ m, r * annuityBalance r pay m < pay := by
  intro m
  induction m with
  | zero => simpa [annuityBalance] using hpay
  | succ m ih =>
    have h1 : (0:ℚ) < 1 + r := by linarith
    show r * ((annuityBalance r pay m + pay) / (1 + r)) < pay
    rw [mul_div_assoc', div_lt_iff₀ h1]
    nlinarith [ih]

lemma annuityBalance_zero_rate (pay : ℚ) :
    ∀ m, annuityBalance 0 pay m = m * pay := by
  intro m
  induction m with
  | zero => simp [annuityBalance]
  | succ m ih =>
    show (annuityBalance 0 pay m + pay) / (1 + 0) = (m + 1 : Nat) * pay
    rw [ih]
    push_cast
    ring

lemma annuityBalance_closed {r : ℚ} (pay : ℚ) (hr : 0 < r) :
    ∀ m, annuityBalance r pay m = pay * ((1 + r) ^ m - 1) / (r * (1 + r) ^ m) := by
  intro m
  induction m with
  | zero => simp [annuityBalance]
  | succ m ih =>
    have h1 : (0:ℚ) < 1 + r := by linarith
    have h1' : (1:ℚ) + r ≠ 0 := ne_of_gt h1
    have h2 : (1 + r) ^ m ≠ 0 := pow_ne_zero m h1'
    have hrne : r ≠ 0 := ne_of_gt hr
    show (annuityBalance r pay m + pay) / (1 + r) =
      pay * ((1 + r) ^ (m + 1) - 1) / (r * (1 + r) ^ (m + 1))
    rw [ih]
    field_simp
    ring

lemma annuityBalance_of_payment {r P : ℚ} {n : Nat} (hr : 0 < r)
    (hden : (1 + r) ^ n - 1 ≠ 0) :
    annuityBalance r (P * (r * (1 + r) ^ n) / ((1 + r) ^ n - 1)) n = P := by
  rw [annuityBalance_closed _ hr]
  have h1 : (0:ℚ) < 1 + r := by linarith
  have h2 : (1 + r) ^ n ≠ 0 := pow_ne_zero n (ne_of_gt h1)
  have hrne : r ≠ 0 := ne_of_gt hr
  field_simp

end AnnuityLemmas

section MainInvariant

/-- Helper: pushing `getLast?` through a cons with nonempty tail. -/
lemma getLast?_cons_of_ne_nil {α : Type} {l : List α} (a : α) (h : l ≠ []) :
    (a :: l).getLast? = l.getLast? := by
  cases l with
  | nil => exact absurd rfl h
  | cons x xs => exact List.getLast?_cons_cons

/-- Helper: an anchored chain gives an unanchored one. -/
lemma chain_to_chain' {α : Type} {R : α → α → Prop} {a : α} {l : List α}
    (h : List.Chain R a l) : l.Chain' R := by
  cases l with
  | nil => trivial
  | cons x xs => exact (List.chain_cons.mp h).2

/-- Main invariant of the amortization loop: as long as the running balance is
positive and bounded by the exact annuity balance for the remaining number of
periods, the emitted schedule is nonempty, its displayed balances are
non-increasing and non-negative and end at exactly 0, the displayed principal
portions sum to the incoming balance up to half a cent per record, and the
number of records is bounded by the fuel. -/
theorem amortLoop_invariant (r pay extra : ℚ) (ppy : Nat)
    (hr : 0 ≤ r) (hpay : 0 < pay) (hextra : 0 ≤ extra) :
    ∀ m num b d, 0 < b → b ≤ annuityBalance r pay m →
      amortLoop r pay extra ppy m num b d ≠ [] ∧
      List.Chain (fun a c => c ≤ a) (max (round2 b) 0)
        ((amortLoop r pay extra ppy m num b d).map PaymentRecord.balance) ∧
      (∀ rec ∈ amortLoop r pay extra ppy m num b d, 0 ≤ rec.balance) ∧
      ((amortLoop r pay extra ppy m num b d).map PaymentRecord.balance).getLast? =
        some 0 ∧
      |((amortLoop r pay extra ppy m num b d).map PaymentRecord.principal).sum - b| ≤
        ((amortLoop r pay extra ppy m num b d).length : ℚ) / 200 ∧
      (amortLoop r pay extra ppy m num b d).length ≤ m := by
  intro m
  induction m with
  | zero =>
    intro num b d hb hle
    rw [show annuityBalance r pay 0 = 0 from rfl] at hle
    linarith
  | succ m ih =>
    intro num b d hb hle
    have h1r : (0:ℚ) < 1 + r := by linarith
    have hrb : b * r < pay := by
      have h1 : r * b ≤ r * annuityBalance r pay (m + 1) :=
        mul_le_mul_of_nonneg_left hle hr
      have h2 := annuityBalance_rate_lt hr hpay (m + 1)
      nlinarith
    have hu : 0 < pay + extra - b * r := by linarith
    rw [amortLoop_succ]
    have hpp_le : min (pay + extra - b * r) b ≤ b := min_le_right _ _
    have hpp_pos : 0 < min (pay + extra - b * r) b := lt_min hu hb
    set pp := min (pay + extra - b * r) b with hpp_def
    set b2 := b - pp with hb2_def
    have hb2_nonneg : 0 ≤ b2 := by rw [hb2_def]; linarith
    have hb2_lt : b2 < b := by rw [hb2_def]; linarith
    have hrec := annuityBalance_rec pay hr m
    have haBm_nonneg := annuityBalance_nonneg hr (le_of_lt hpay) m
    have hb2_le : b2 ≤ annuityBalance r pay m := by
      rcases min_cases (pay + extra - b * r) b with ⟨he, _⟩ | ⟨he, _⟩
      · have hmul : (1 + r) * b ≤ (1 + r) * annuityBalance r pay (m + 1) :=
          mul_le_mul_of_nonneg_left hle (le_of_lt h1r)
        have hexp : (1 + r) * b = b + b * r := by ring
        rw [hb2_def, hpp_def, he]
        linarith
      · rw [hb2_def, hpp_def, he]
        linarith
    by_cases hstop : b2 ≤ 0
    · have hb2_eq : b2 = 0 := le_antisymm hstop hb2_nonneg
      rw [if_pos hstop]
      have hbal0 : max (round2 b2) 0 = 0 := by
        rw [hb2_eq, round2_zero, max_self]
      refine ⟨by simp, ?_, ?_, ?_, ?_, by simp⟩
      · refine List.chain_cons.mpr ⟨?_, List.Chain.nil⟩
        show max (round2 b2) 0 ≤ max (round2 b) 0
        rw [hbal0]
        exact le_max_right _ _
      · intro rec hrec
        simp only [List.mem_singleton] at hrec
        subst hrec
        exact le_max_right _ _
      · simp only [List.map_cons, List.map_nil, List.getLast?_singleton]
        rw [hbal0]
      · simp only [List.map_cons, List.map_nil, List.sum_cons, List.sum_nil,
          List.length_singleton]
        have hppb : pp = b := by rw [hb2_def] at hb2_eq; linarith
        rw [hppb, add_zero]
        calc |round2 b - b| ≤ 1/200 := abs_round2_sub_le b
          _ = (1:ℚ)/200 := by norm_num
    · push_neg at hstop
      rw [if_neg (not_le.mpr hstop)]
      obtain ⟨ihne, ihchain, ihnonneg, ihlast, ihsum, ihlen⟩ :=
        ih (num + 1) b2 (stepDate ppy d) hstop hb2_le
      refine ⟨by simp, ?_, ?_, ?_, ?_, ?_⟩
      · refine List.chain_cons.mpr ⟨?_, ihchain⟩
        show max (round2 b2) 0 ≤ max (round2 b) 0
        exact max_le_max (round2_mono (le_of_lt hb2_lt)) (le_refl 0)
      · intro rec hrec
        rcases List.mem_cons.mp hrec with h | h
        · subst h
          exact le_max_right _ _
        · exact ihnonneg rec h
      · rw [List.map_cons]
        rw [getLast?_cons_of_ne_nil _ (by simpa using ihne)]
        exact ihlast
      · rw [List.map_cons, List.sum_cons, List.length_cons]
        have herr := abs_round2_sub_le pp
        have hsplit : round2 pp +
            ((amortLoop r pay extra ppy m (num + 1) b2 (stepDate ppy d)).map
              PaymentRecord.principal).sum - b =
            (round2 pp - pp) +
            (((amortLoop r pay extra ppy m (num + 1) b2 (stepDate ppy d)).map
              PaymentRecord.principal).sum - b2) := by
          rw [hb2_def]; ring
        rw [hsplit]
        calc |(round2 pp - pp) +
            (((amortLoop r pay extra ppy m (num + 1) b2 (stepDate ppy d)).map
              PaymentRecord.principal).sum - b2)| ≤
            |round2 pp - pp| +
            |((amortLoop r pay extra ppy m (num + 1) b2 (stepDate ppy d)).map
              PaymentRecord.principal).sum - b2| := abs_add _ _
          _ ≤ 1/200 +
              ((amortLoop r pay extra ppy m (num + 1) b2 (stepDate ppy d)).length : ℚ)
                / 200 := by linarith
          _ = (((amortLoop r pay extra ppy m (num + 1) b2 (stepDate ppy d)).length
                + 1 : Nat) : ℚ) / 200 := by push_cast; ring
      · simpa using ihlen

/-- With no extra payment and the balance exactly on the annuity curve, the
loop runs for exactly its full fuel. -/
theorem amortLoop_exact_length {r pay : ℚ} (ppy : Nat) (hr : 0 ≤ r) (hpay : 0 < pay) :
    ∀ m num d, 1 ≤ m →
      (amortLoop r pay 0 ppy m num (annuityBalance r pay m) d).length = m := by
  intro m
  induction m with
  | zero => intro num d hm; omega
  | succ m ih =>
    intro num d _
    have h1r : (0:ℚ) < 1 + r := by linarith
    have hb_pos : 0 < annuityBalance r pay (m + 1) := annuityBalance_pos hr hpay m
    have hrec := annuityBalance_rec pay hr m
    have haBm_nonneg := annuityBalance_nonneg hr (le_of_lt hpay) m
    set b := annuityBalance r pay (m + 1) with hb_def
    have hexp : (1 + r) * b = b + b * r := by ring
    have hu_le : pay + 0 - b * r ≤ b := by linarith
    have hmin : min (pay + 0 - b * r) b = pay + 0 - b * r := min_eq_left hu_le
    have hb2 : b - min (pay + 0 - b * r) b = annuityBalance r pay m := by
      rw [hmin]; linarith
    rw [amortLoop_succ, hb2]
    rcases Nat.eq_zero_or_pos m with hm0 | hm1
    · subst hm0
      rw [if_pos (le_of_eq (show annuityBalance r pay 0 = 0 from rfl))]
      rfl
    · have hpos : 0 < annuityBalance r pay m := annuityBalance_pos' hr hpay hm1
      rw [if_neg (not_le.mpr hpos), List.length_cons, ih (num + 1) (stepDate ppy d) hm1]

/-- Destructor for a successful call of the schedule function: the branch
conditions, the payment formula of the taken branch, and the loop call. -/
lemma calc_spec {P r : ℚ} {y ppy : Nat} {e : ℚ} {d : Date} {pay : ℚ}
    {sched : List PaymentRecord}
    (h : calculate_amortization_schedule P r y ppy e d = some (pay, sched)) :
    ppy ≠ 0 ∧ y * ppy ≠ 0 ∧
    sched = amortLoop (r / 100 / (ppy:ℚ)) pay e ppy (y * ppy) 1 P d ∧
    ((0 < r / 100 / (ppy:ℚ) ∧
        (1 + r / 100 / (ppy:ℚ)) ^ (y * ppy) - 1 ≠ 0 ∧
        pay = P * ((r / 100 / (ppy:ℚ)) * (1 + r / 100 / (ppy:ℚ)) ^ (y * ppy)) /
          ((1 + r / 100 / (ppy:ℚ)) ^ (y * ppy) - 1)) ∨
      (¬ 0 < r / 100 / (ppy:ℚ) ∧ pay = P / ((y * ppy : Nat) : ℚ))) := by
  simp only [calculate_amortization_schedule] at h
  split_ifs at h with h0 h1 h2 h3
  · rw [Option.some.injEq, Prod.mk.injEq] at h
    obtain ⟨hpay, hsched⟩ := h
    rw [hpay] at hsched
    have hn : y * ppy ≠ 0 := by
      intro hzero
      rw [hzero] at h2
      simp at h2
    exact ⟨h0, hn, hsched.symm, Or.inl ⟨h1, h2, hpay.symm⟩⟩
  · rw [Option.some.injEq, Prod.mk.injEq] at h
    obtain ⟨hpay, hsched⟩ := h
    rw [hpay] at hsched
    exact ⟨h0, h3, hsched.symm, Or.inr ⟨h1, hpay.symm⟩⟩

/-- Under the spec's validity constraints, a successful call has a positive
payment, the principal sits exactly on the annuity curve for the full number
of periods, and the schedule is the loop's output. -/
lemma calc_setup {P r : ℚ} {y ppy : Nat} {e : ℚ} {d : Date} {pay : ℚ}
    {sched : List PaymentRecord}
    (hP : 0 < P) (hr : 0 ≤ r)
    (h : calculate_amortization_schedule P r y ppy e d = some (pay, sched)) :
    0 ≤ r / 100 / (ppy:ℚ) ∧ 0 < pay ∧
    annuityBalance (r / 100 / (ppy:ℚ)) pay (y * ppy) = P ∧
    sched = amortLoop (r / 100 / (ppy:ℚ)) pay e ppy (y * ppy) 1 P d ∧
    1 ≤ y * ppy := by
  obtain ⟨h0, hn, hsched, hbranch⟩ := calc_spec h
  have hppos : (0:ℚ) < (ppy:ℚ) := by exact_mod_cast Nat.pos_of_ne_zero h0
  have hrp : 0 ≤ r / 100 / (ppy:ℚ) := by positivity
  have hn1 : 1 ≤ y * ppy := Nat.pos_of_ne_zero hn
  rcases hbranch with ⟨hpos, hden, hpay⟩ | ⟨hneg, hpay⟩
  · refine ⟨hrp, ?_, ?_, hsched, hn1⟩
    · rw [hpay]
      have hx : (1:ℚ) < 1 + r / 100 / (ppy:ℚ) := by linarith
      have hxn : 1 < (1 + r / 100 / (ppy:ℚ)) ^ (y * ppy) := one_lt_pow₀ hx hn
      apply div_pos
      · have : (0:ℚ) < (1 + r / 100 / (ppy:ℚ)) ^ (y * ppy) := by linarith
        positivity
      · linarith
    · rw [hpay]
      exact annuityBalance_of_payment hpos hden
  · have hrp0 : r / 100 / (ppy:ℚ) = 0 := le_antisymm (not_lt.mp hneg) hrp
    have hnq : ((y * ppy : Nat) : ℚ) ≠ 0 := by exact_mod_cast hn
    have hnq' : (0:ℚ) < ((y * ppy : Nat) : ℚ) := by exact_mod_cast hn1
    refine ⟨hrp, ?_, ?_, hsched, hn1⟩
    · rw [hpay]
      positivity
    · have hy0 : y ≠ 0 := by
        intro hy
        exact hn (by rw [hy, Nat.zero_mul])
      have hyq : ((y:ℚ)) ≠ 0 := Nat.cast_ne_zero.mpr hy0
      have hppyq : ((ppy:ℚ)) ≠ 0 := Nat.cast_ne_zero.mpr h0
      rw [hpay, hrp0, annuityBalance_zero_rate]
      push_cast
      field_simp

end MainInvariant

section ClaimTheorems

/-- C1 (amended): `calculate_amortization_schedule` performs no parameter
validation whatsoever. Every call with a nonzero payment frequency and a
nonzero term succeeds — including `payments_per_year = 10`, a negative rate,
or a non-positive principal. (The only failure mode of the source is a
`ZeroDivisionError` when `payments_per_year` or the total period count is
zero.) -/
theorem no_parameter_validation : ∀ (P r : ℚ) (y ppy : Nat) (e : ℚ) (d : Date),
    ppy ≠ 0 → y ≠ 0 →
    (calculate_amortization_schedule P r y ppy e d).isSome = true := by
  intro P r y ppy e d hppy hy
  simp only [calculate_amortization_schedule]
  rw [if_neg hppy]
  by_cases hpos : 0 < r / 100 / (ppy:ℚ)
  · rw [if_pos hpos]
    have hx : (1:ℚ) < 1 + r / 100 / (ppy:ℚ) := by linarith
    have hn : y * ppy ≠ 0 := Nat.mul_ne_zero hy hppy
    have hxn : 1 < (1 + r / 100 / (ppy:ℚ)) ^ (y * ppy) := one_lt_pow₀ hx hn
    rw [if_neg (by intro hc; linarith)]
    rfl
  · rw [if_neg hpos, if_neg (Nat.mul_ne_zero hy hppy)]
    rfl

/-- C4 (amended): apart from the due dates, the output of
`calculate_amortization_schedule` is fully determined by the loan parameters;
the invocation-time current date (the model of `datetime.now().date()`) only
shifts the emitted due dates. -/
theorem numeric_output_date_independent :
    ∀ (P r : ℚ) (y ppy : Nat) (e : ℚ) (d d1 : Date),
    (calculate_amortization_schedule P r y ppy e d).map
      (fun pr => (pr.1, pr.2.map numericPart)) =
    (calculate_amortization_schedule P r y ppy e d1).map
      (fun pr => (pr.1, pr.2.map numericPart)) := by
  intro P r y ppy e d d1
  simp only [calculate_amortization_schedule]
  split_ifs <;>
    first
      | rfl
      | (simp only [Option.map_some', Option.some.injEq, Prod.mk.injEq, true_and]
         exact amortLoop_numeric_date_free _ _ _ _ _ _ _ _ _)

/-- C3 (amended): the `total_payment` field of every emitted record equals
`round2 (scheduled_payment + extra_payment)` — one constant for the whole
schedule. In particular it does not shrink on the terminal record, and there
it need not equal `principal_portion + interest_portion`. -/
theorem total_payment_constant (P r : ℚ) (y ppy : Nat) (e : ℚ) (d : Date)
    (pay : ℚ) (sched : List PaymentRecord)
    (h : calculate_amortization_schedule P r y ppy e d = some (pay, sched)) :
    ∀ rec ∈ sched, rec.total_payment = round2 (pay + e) := by
  obtain ⟨_, _, hsched, _⟩ := calc_spec h
  rw [hsched]
  exact amortLoop_total_payment _ pay e ppy (y * ppy) 1 P d

/-- C5: for every valid input the sequence of displayed `remaining_balance`
values is non-increasing, never negative, and ends at exactly 0; the schedule
is nonempty. -/
theorem balance_monotone_nonneg_final_zero (P r : ℚ) (y ppy : Nat) (e : ℚ)
    (d : Date) (pay : ℚ) (sched : List PaymentRecord)
    (hP : 0 < P) (hr : 0 ≤ r) (he : 0 ≤ e)
    (h : calculate_amortization_schedule P r y ppy e d = some (pay, sched)) :
    sched ≠ [] ∧
    (sched.map PaymentRecord.balance).Chain' (fun a c => c ≤ a) ∧
    (∀ rec ∈ sched, 0 ≤ rec.balance) ∧
    (sched.map PaymentRecord.balance).getLast? = some 0 := by
  obtain ⟨hrp, hpay, haB, hsched, hn1⟩ := calc_setup hP hr h
  obtain ⟨hne, hchain, hnonneg, hlast, _, _⟩ :=
    amortLoop_invariant _ pay e ppy hrp hpay he (y * ppy) 1 P d hP (le_of_eq haB.symm)
  rw [hsched]
  exact ⟨hne, chain_to_chain' hchain, hnonneg, hlast⟩

/-- C7: the schedule never exceeds `term_years * payments_per_year` records,
reaches that bound exactly when `extra_payment = 0`, and if it stops early
the final displayed balance is 0 (the loan was paid off). -/
theorem schedule_length_bounds (P r : ℚ) (y ppy : Nat) (e : ℚ) (d : Date)
    (pay : ℚ) (sched : List PaymentRecord)
    (hP : 0 < P) (hr : 0 ≤ r) (he : 0 ≤ e)
    (h : calculate_amortization_schedule P r y ppy e d = some (pay, sched)) :
    sched.length ≤ y * ppy ∧
    (e = 0 → sched.length = y * ppy) ∧
    (sched.length < y * ppy → (sched.map PaymentRecord.balance).getLast? = some 0) := by
  obtain ⟨hrp, hpay, haB, hsched, hn1⟩ := calc_setup hP hr h
  refine ⟨?_, ?_, ?_⟩
  · rw [hsched]
    exact amortLoop_length_le _ _ _ _ _ _ _ _
  · intro he0
    subst he0
    rw [hsched, ← haB]
    exact amortLoop_exact_length ppy hrp hpay (y * ppy) 1 d hn1
  · intro _
    obtain ⟨_, _, _, hlast, _, _⟩ :=
      amortLoop_invariant _ pay e ppy hrp hpay he (y * ppy) 1 P d hP
        (le_of_eq haB.symm)
    rw [hsched]
    exact hlast

/-- C8: the displayed principal portions sum back to the principal within
one cent per record (in fact within half a cent per record). -/
theorem principal_sum_tolerance (P r : ℚ) (y ppy : Nat) (e : ℚ) (d : Date)
    (pay : ℚ) (sched : List PaymentRecord)
    (hP : 0 < P) (hr : 0 ≤ r) (he : 0 ≤ e)
    (h : calculate_amortization_schedule P r y ppy e d = some (pay, sched)) :
    |(sched.map PaymentRecord.principal).sum - P| ≤ (sched.length : ℚ) / 100 := by
  obtain ⟨hrp, hpay, haB, hsched, hn1⟩ := calc_setup hP hr h
  obtain ⟨_, _, _, _, hsum, _⟩ :=
    amortLoop_invariant _ pay e ppy hrp hpay he (y * ppy) 1 P d hP (le_of_eq haB.symm)
  rw [hsched]
  have hlen : (0:ℚ) ≤
      ((amortLoop (r / 100 / (ppy:ℚ)) pay e ppy (y * ppy) 1 P d).length : ℚ) :=
    Nat.cast_nonneg _
  calc |((amortLoop (r / 100 / (ppy:ℚ)) pay e ppy (y * ppy) 1 P d).map
        PaymentRecord.principal).sum - P| ≤
      ((amortLoop (r / 100 / (ppy:ℚ)) pay e ppy (y * ppy) 1 P d).length : ℚ) / 200 :=
        hsum
    _ ≤ ((amortLoop (r / 100 / (ppy:ℚ)) pay e ppy (y * ppy) 1 P d).length : ℚ) / 100 := by
        linarith

end ClaimTheorems

section ConcreteEvaluation

attribute [local semireducible] Rat.add Rat.mul Rat.inv Rat.sub

/-- Reference computation: the smallest zero-rate run evaluates to
`tinySched`. -/
lemma tinyCalc :
    calculate_amortization_schedule 12 0 1 12 0 ⟨2024, 1, 1⟩ = some (1, tinySched) := by
  decide

/-- C1 (counterexample to the claim as stated): the call with
`payments_per_year = 10` does not fail — it returns a schedule. -/
theorem invalid_frequency_accepted :
    (calculate_amortization_schedule 25000 (11/2) 5 10 0 ⟨2024, 1, 1⟩).isSome = true := by
  decide

/-- C1 witness. -/
theorem no_parameter_validation_witness :
    (10:Nat) ≠ 0 ∧ (5:Nat) ≠ 0 ∧
    (calculate_amortization_schedule 25000 (11/2) 5 10 0 ⟨2024, 1, 1⟩).isSome = true :=
  ⟨by norm_num, by norm_num,
    no_parameter_validation 25000 (11/2) 5 10 0 ⟨2024, 1, 1⟩ (by norm_num) (by norm_num)⟩

/-- C2 (code bug): the monthly date step never advances a month-end date whose
day does not exist in the following month. Starting from 2025-01-31, the
`except` branch computes the last day of the current month, so the date stays
2025-01-31 forever, and a whole monthly schedule repeats that date. The spec
says Jan 31 advances to Feb 28. -/
theorem month_advance_stuck_at_month_end :
    stepMonth ⟨2025, 1, 31⟩ = ⟨2025, 1, 31⟩ ∧
    (calculate_amortization_schedule 100 0 1 12 0 ⟨2025, 1, 31⟩).map
      (fun pr => pr.2.map PaymentRecord.date) =
      some (List.replicate 12 ⟨2025, 1, 31⟩) := by
  constructor
  · decide
  · decide

/-- C3 (counterexample to the claim as stated): with principal 1000, rate 0,
12 monthly periods and extra payment 500, the final (capped) record has
`total_payment` 583.33 but `principal + interest` 416.67: the total payment
field does not shrink and does not equal the sum. -/
theorem final_total_payment_not_sum :
    (calculate_amortization_schedule 1000 0 1 12 500 ⟨2024, 1, 1⟩).map
      (fun pr => pr.2.map (fun rec => (rec.total_payment, rec.principal + rec.interest))) =
      some [(58333/100, 58333/100), (58333/100, 41667/100)] ∧
    ((58333 : ℚ)/100 ≠ 41667/100) := by
  constructor
  · decide
  · decide

/-- C3 witness. -/
theorem total_payment_constant_witness :
    tinyRec1.total_payment = round2 ((1:ℚ) + 0) :=
  total_payment_constant 12 0 1 12 0 ⟨2024, 1, 1⟩ 1 tinySched tinyCalc tinyRec1
    (List.mem_cons_self _ _)

/-- C4 (counterexample to the claim as stated): the function reads the wall
clock — two runs with identical loan parameters but different invocation
dates give different outputs, so no caller-supplied `start_date` determines
the due dates. -/
theorem schedule_varies_with_invocation_date :
    calculate_amortization_schedule 100 0 1 12 0 ⟨2025, 3, 1⟩ ≠
    calculate_amortization_schedule 100 0 1 12 0 ⟨2025, 3, 2⟩ := by
  decide

/-- C5 witness. -/
theorem balance_monotone_nonneg_final_zero_witness :
    tinySched ≠ [] ∧
    (tinySched.map PaymentRecord.balance).Chain' (fun a c => c ≤ a) ∧
    (tinySched.map PaymentRecord.balance).getLast? = some 0 := by
  obtain ⟨h1, h2, _, h4⟩ :=
    balance_monotone_nonneg_final_zero 12 0 1 12 0 ⟨2024, 1, 1⟩ 1 tinySched
      (by norm_num) (le_refl 0) (le_refl 0) tinyCalc
  exact ⟨h1, h2, h4⟩

/-- C6: the scheduled payment follows the amortizing-annuity formula when the
periodic rate is positive, equals `principal / total_periods` otherwise, and
on Scenario A (25000 at 5.5% over 5 years, monthly) rounds to 477.53. -/
theorem scheduled_payment_formula :
    (∀ (P r : ℚ) (y ppy : Nat) (e : ℚ) (d : Date),
      0 < r / 100 / (ppy:ℚ) → (1 + r / 100 / (ppy:ℚ)) ^ (y * ppy) - 1 ≠ 0 →
      ppy ≠ 0 →
      (calculate_amortization_schedule P r y ppy e d).map Prod.fst =
        some (P * ((r / 100 / (ppy:ℚ)) * (1 + r / 100 / (ppy:ℚ)) ^ (y * ppy)) /
          ((1 + r / 100 / (ppy:ℚ)) ^ (y * ppy) - 1))) ∧
    (∀ (P r : ℚ) (y ppy : Nat) (e : ℚ) (d : Date),
      ¬ 0 < r / 100 / (ppy:ℚ) → ppy ≠ 0 → y * ppy ≠ 0 →
      (calculate_amortization_schedule P r y ppy e d).map Prod.fst =
        some (P / ((y * ppy : Nat) : ℚ))) ∧
    (calculate_amortization_schedule 25000 (11/2) 5 12 0 ⟨2024, 1, 1⟩).map
      (fun pr => round2 pr.1) = some (47753/100) := by
  refine ⟨?_, ?_, ?_⟩
  · intro P r y ppy e d hpos hden hppy
    simp only [calculate_amortization_schedule]
    rw [if_neg hppy, if_pos hpos, if_neg hden]
    rfl
  · intro P r y ppy e d hneg hppy hn
    simp only [calculate_amortization_schedule]
    rw [if_neg hppy, if_neg hneg, if_neg hn]
    rfl
  · decide

/-- C6 witness. -/
theorem scheduled_payment_formula_witness :
    (calculate_amortization_schedule 1200 12 1 12 0 ⟨2024, 1, 1⟩).map Prod.fst =
      some (1200 * ((12 / 100 / ((12:Nat):ℚ)) * (1 + 12 / 100 / ((12:Nat):ℚ)) ^ (1 * 12)) /
        ((1 + 12 / 100 / ((12:Nat):ℚ)) ^ (1 * 12) - 1)) :=
  scheduled_payment_formula.1 1200 12 1 12 0 ⟨2024, 1, 1⟩ (by norm_num) (by norm_num)
    (by norm_num)

/-- C7 witness. -/
theorem schedule_length_bounds_witness :
    tinySched.length ≤ 1 * 12 ∧ tinySched.length = 1 * 12 := by
  obtain ⟨h1, h2, _⟩ :=
    schedule_length_bounds 12 0 1 12 0 ⟨2024, 1, 1⟩ 1 tinySched (by norm_num)
      (le_refl 0) (le_refl 0) tinyCalc
  exact ⟨h1, h2 rfl⟩

/-- C8 witness. -/
theorem principal_sum_tolerance_witness :
    |(tinySched.map PaymentRecord.principal).sum - 12| ≤ ((tinySched.length : Nat) : ℚ) / 100 :=
  principal_sum_tolerance 12 0 1 12 0 ⟨2024, 1, 1⟩ 1 tinySched (by norm_num)
    (le_refl 0) (le_refl 0) tinyCalc

/-- C9: with a zero annual rate every record's interest is 0 and every record
except possibly the last carries the same principal portion; on Scenario C
(10000 over 12 zero-rate months) every principal portion displays as 833.33
and the total interest is 0. -/
theorem zero_rate_schedule :
    (∀ (P : ℚ) (y ppy : Nat) (e : ℚ) (d : Date) (pay : ℚ)
      (sched : List PaymentRecord),
      calculate_amortization_schedule P 0 y ppy e d = some (pay, sched) →
      (∀ rec ∈ sched, rec.interest = 0) ∧
      (∀ rec ∈ sched.dropLast, rec.principal = round2 (pay + e))) ∧
    ((calculate_amortization_schedule 10000 0 1 12 0 ⟨2024, 1, 1⟩).map
      (fun pr => (pr.2.map PaymentRecord.principal,
        (pr.2.map PaymentRecord.interest).sum)) =
      some (List.replicate 12 (83333/100), 0)) := by
  constructor
  · intro P y ppy e d pay sched h
    obtain ⟨_, _, hsched, _⟩ := calc_spec h
    have hrp0 : (0:ℚ) / 100 / (ppy:ℚ) = 0 := by norm_num
    rw [hrp0] at hsched
    rw [hsched]
    exact amortLoop_zero_rate pay e ppy (y * ppy) 1 P d
  · decide

/-- C9 witness. -/
theorem zero_rate_schedule_witness :
    tinyRec1.interest = 0 ∧ tinyRec1.principal = round2 ((1:ℚ) + 0) := by
  obtain ⟨hint, hprin⟩ :=
    zero_rate_schedule.1 12 1 12 0 ⟨2024, 1, 1⟩ 1 tinySched tinyCalc
  exact ⟨hint tinyRec1 (List.mem_cons_self _ _), hprin tinyRec1 (by decide)⟩

/-- C10: registering stores exactly the hash of the password (never the
password itself) keyed by the username, and authentication recomputes the
hash of the supplied password and compares; hence a fresh registration
followed by authentication with the same credentials succeeds. -/
theorem password_stored_hashed_roundtrip :
    ∀ (hash : String → String) (db : UserStore) (u p : String),
    (register_user hash db u p).1 = true →
    (register_user hash db u p).2.users = db.users ++ [(u, hash p)] ∧
    authenticate_user hash (register_user hash db u p).2 u p = true := by
  intro hash db u p hok
  by_cases hdup : db.users.any (fun row => row.1 == u)
  · exfalso
    simp only [register_user, if_pos hdup] at hok
    exact absurd hok (by simp)
  · constructor
    · simp [register_user, hdup]
    · simp [register_user, authenticate_user, hdup, List.any_append]

/-- C10 witness. -/
theorem password_stored_hashed_roundtrip_witness :
    (register_user (fun s => s.push 'h') ⟨[]⟩ "alice" "pw").2.users =
      [] ++ [("alice", "pwh")] ∧
    authenticate_user (fun s => s.push 'h')
      (register_user (fun s => s.push 'h') ⟨[]⟩ "alice" "pw").2 "alice" "pw" = true := by
  have h := password_stored_hashed_roundtrip (fun s => s.push 'h') ⟨[]⟩ "alice" "pw"
    (by decide)
  simpa using h

end ConcreteEvaluation
